import Mathlib

/-!
Shallow embedding of `chromedriver_downloader.py`.

The embedded core is the version index of `ChromeDriverDownloader`:
`_compare_versions`, the platform/arch key resolution and the modern-catalog
filtering inside `get_filtered_versions`, the legacy record synthesis built on
`get_legacy_download_url` and `legacy_platform_map`, the `latest_only`
dictionary reduction, and the bucket diff of `find_missing_drivers`.

Network and filesystem effects are passed in as values: the fetched modern
catalog and the fetched legacy version list are `Option` parameters
(`none` models a failed fetch), and the local directory listing is a
`List String` parameter.  Python exceptions that the embedded code can raise
(`ValueError` from `int(...)` on a non-numeric version segment) are modelled by
`Option` results.  Python `str` values are modelled by `String`, acting on the
underlying character list, and `int(...)` on a version segment is modelled on
the nonempty digit-only strings that version segments are made of.
-/

set_option autoImplicit false

namespace ChromeDriver

/-- A normalized record as appended by `get_filtered_versions`
(a Python dict with keys `version`, `platform`, `download_url`, `source`). -/
structure VersionRecord where
  version : String
  platform : String
  download_url : String
  source : String
  deriving Repr, DecidableEq

/-- The value stored in `version_map` by `find_missing_drivers`
(keys `full_version`, `download_url`, `is_legacy`). -/
structure DriverInfo where
  full_version : String
  download_url : String
  is_legacy : Bool
  deriving Repr, DecidableEq

/-- An entry of the `missing_versions` list returned by `find_missing_drivers`
(keys `version_dir`, `full_version`, `download_url`, `is_legacy`). -/
structure MissingEntry where
  version_dir : String
  full_version : String
  download_url : String
  is_legacy : Bool
  deriving Repr, DecidableEq

/-- One download entry of the modern catalog: an element of
`version_info["downloads"]["chromedriver"]` with its `platform` and `url`. -/
structure Download where
  platform : String
  url : String
  deriving Repr, DecidableEq

/-- One entry of the modern catalog's `versions` array: its `version` string
and its `downloads.chromedriver` list. -/
structure CatalogEntry where
  version : String
  chromedriver : List Download
  deriving Repr, DecidableEq

/-- Python `s.split('.')` on the character list of `s`: splits at every `'.'`
and keeps empty pieces, so the result is always nonempty. -/
def splitSegs : List Char → List (List Char)
  | [] => [[]]
  | c :: cs =>
    let rest := splitSegs cs
    if c = '.' then [] :: rest
    else
      match rest with
      | [] => [[c]]
      | s :: ss => (c :: s) :: ss

/-- Python `int(seg)` on a version segment: defined exactly on nonempty
digit-only strings (the only shape a dotted-version segment can have), where it
returns the decimal value. -/
def segNat? (l : List Char) : Option Nat :=
  if l ≠ [] ∧ l.all Char.isDigit then
    some (l.foldl (fun n c => 10 * n + (c.toNat - 48)) 0)
  else none

/-- `[int(x) for x in version.split('.')]`; `none` models the `ValueError`
raised on a non-numeric segment. -/
def parseVersion (v : String) : Option (List Nat) :=
  (splitSegs v.data).mapM segNat?

/-- `version.split('.')[0]`: the leading dot-separated segment. -/
def majorOf (v : String) : String :=
  ⟨(splitSegs v.data).headD []⟩

/-- ASCII `str.lower()`: the platform names this tool handles are ASCII. -/
def lowerChar (c : Char) : Char :=
  if c.isUpper then Char.ofNat (c.toNat + 32) else c

/-- `platform.lower()` on ASCII strings. -/
def lowerStr (s : String) : String :=
  ⟨s.data.map lowerChar⟩

/-- Python `dict.get` on a small literal dict, modelled as an association
list scan. -/
def assoc {α : Type} (k : String) : List (String × α) → Option α
  | [] => none
  | (k', v) :: rest => if k = k' then some v else assoc k rest

/-- The tail of the comparison loop of `_compare_versions` once the left
segments are exhausted: every remaining left position reads `0`, so the result
is `-1` at the first positive right segment, else `0`. -/
def cmpNil : List Nat → Int
  | [] => 0
  | y :: ys => if 0 < y then (-1 : Int) else cmpNil ys

/-- The comparison loop of `_compare_versions` on the parsed segment lists:
position by position, a missing trailing segment read as `0`; returns `1`,
`-1` or `0` at the first difference. -/
def cmpSeg : List Nat → List Nat → Int
  | [], ys => cmpNil ys
  | x :: xs, [] => if 0 < x then (1 : Int) else cmpSeg xs []
  | x :: xs, y :: ys =>
    if y < x then (1 : Int) else if x < y then (-1 : Int) else cmpSeg xs ys

/-- `_compare_versions(version1, version2)`: `some 1` / `some (-1)` / `some 0`;
`none` models the `ValueError` raised when a segment is not numeric. -/
def compare_versions (version1 version2 : String) : Option Int :=
  match parseVersion version1, parseVersion version2 with
  | some a, some b => some (cmpSeg a b)
  | _, _ => none

/-- `self.platform_map` (modern source): windows covers both win tokens,
linux only linux64. -/
def platform_map : List (String × List String) :=
  [("windows", ["win64", "win32"]), ("linux", ["linux64"])]

/-- `self.legacy_platform_map`: per platform, per arch, the legacy download
token; in the legacy repository win32 serves both windows architectures. -/
def legacy_platform_map : List (String × List (String × String)) :=
  [("windows", [("x64", "win32"), ("x86", "win32")]),
   ("linux", [("x64", "linux64"), ("x86", "linux32")])]

/-- `self.legacy_url`. -/
def legacy_url : String := "https://chromedriver.storage.googleapis.com/"

/-- The platform-key computation at the top of `get_filtered_versions`
(lines 85-93): `platform_map.get(platform.lower())`, then for windows an
explicit arch refinement; `none` means no platform filtering.  An empty
string is falsy in Python, so it behaves like an absent argument. -/
def resolvePlatformKeys (platform arch : Option String) : Option (List String) :=
  match platform with
  | none => none
  | some p =>
    if p = "" then none
    else
      let keys := assoc (lowerStr p) platform_map
      match arch with
      | none => keys
      | some a =>
        if a = "" then keys
        else if a = "x64" ∧ lowerStr p = "windows" then some ["win64"]
        else if a = "x86" ∧ lowerStr p = "windows" then some ["win32"]
        else keys

/-- The major-version guard used for both sources: with a truthy
`version_filter`, the record survives iff `version.split('.')[0]` equals the
filter string exactly. -/
def passesMajor : Option String → String → Bool
  | none, _ => true
  | some f, version => f = "" ∨ majorOf version = f

/-- The records contributed by one modern catalog entry
(lines 96-132 of `get_filtered_versions`): entries failing the major filter or
lacking chromedriver downloads are skipped; with platform keys resolved, only
downloads whose platform token is in the key set are kept. -/
def recordsOfEntry (platform_keys : Option (List String)) (version_filter : Option String)
    (e : CatalogEntry) : List VersionRecord :=
  if ¬ passesMajor version_filter e.version then []
  else if e.chromedriver.isEmpty then []
  else
    match platform_keys with
    | some keys =>
      (e.chromedriver.filter (fun d => d.platform ∈ keys)).map
        (fun d => ⟨e.version, d.platform, d.url, "modern"⟩)
    | none =>
      e.chromedriver.map (fun d => ⟨e.version, d.platform, d.url, "modern"⟩)

/-- The modern-catalog loop of `get_filtered_versions`, in appearance order. -/
def processModern (entries : List CatalogEntry) (platform_keys : Option (List String))
    (version_filter : Option String) : List VersionRecord :=
  entries.flatMap (recordsOfEntry platform_keys version_filter)

/-- The legacy download URL template of `chromedriver_downloader.py`. -/
def legacyURL (version key : String) : String :=
  legacy_url ++ version ++ "/chromedriver_" ++ key ++ ".zip"

/-- `self.legacy_platform_map.get(platform.lower(), {}).get(arch)`. -/
def legacyLookup (p a : String) : Option String :=
  (assoc (lowerStr p) legacy_platform_map).bind (fun m => assoc a m)

/-- `get_legacy_download_url(version, platform, arch)`: `none` when the
platform/arch pair has no legacy mapping (including an absent arch, since
`dict.get(None)` on a string-keyed dict is `None`). -/
def get_legacy_download_url (version p : String) (arch : Option String) : Option String :=
  match arch with
  | none => none
  | some a => (legacyLookup p a).map (legacyURL version)

/-- One legacy record for a concrete platform/arch pair (lines 150-160):
appended only when `get_legacy_download_url` produced a URL, with the token
re-read from `legacy_platform_map`. -/
def legacyOneArch (version p a : String) : List VersionRecord :=
  match get_legacy_download_url version p (some a), legacyLookup p a with
  | some url, some key => [⟨version, key, url, "legacy"⟩]
  | _, _ => []

/-- Platform given, no arch (lines 161-172): both archs `x64` then `x86`. -/
def legacyAllArch (version p : String) : List VersionRecord :=
  ["x64", "x86"].flatMap (legacyOneArch version p)

/-- No platform requested (lines 173-185): iterate `legacy_platform_map` in
insertion order (windows then linux) and, per platform, its arch keys
(`x64` then `x86`). -/
def legacyAllPlatforms (version : String) : List VersionRecord :=
  legacy_platform_map.flatMap (fun pm => pm.2.flatMap (fun ao => legacyOneArch version pm.1 ao.1))

/-- The records synthesized for one legacy version string, following the
truthiness branches on `platform` and `arch`. -/
def legacyRecordsFor (version : String) (platform arch : Option String) : List VersionRecord :=
  match platform with
  | some p =>
    if p = "" then legacyAllPlatforms version
    else
      match arch with
      | some a => if a = "" then legacyAllArch version p else legacyOneArch version p a
      | none => legacyAllArch version p
  | none => legacyAllPlatforms version

/-- The legacy loop of `get_filtered_versions` (lines 140-185): every legacy
version string passing the major filter contributes its synthesized records. -/
def legacySynth (legacy_versions : List String) (platform arch version_filter : Option String) :
    List VersionRecord :=
  legacy_versions.flatMap (fun version =>
    if ¬ passesMajor version_filter version then []
    else legacyRecordsFor version platform arch)

/-- `f"{major_version}_{platform}"`: the grouping key of the `latest_only`
reduction. -/
def latestKey (r : VersionRecord) : String :=
  majorOf r.version ++ "_" ++ r.platform

/-- One step of the `latest_only` dictionary build (lines 190-198):
an absent key is inserted at the end; a present key keeps its position and
keeps the stored record unless the new record compares strictly greater
(so ties keep the first-encountered record).  `none` models the `ValueError`
`_compare_versions` raises on a non-numeric segment. -/
def dictInsert : List (String × VersionRecord) → String → VersionRecord →
    Option (List (String × VersionRecord))
  | [], k, r => some [(k, r)]
  | (k', r') :: rest, k, r =>
    if k = k' then
      match compare_versions r.version r'.version with
      | some c => some ((k', if 0 < c then r else r') :: rest)
      | none => none
    else (dictInsert rest k r).map (fun d => (k', r') :: d)

/-- The loop of the `latest_only` reduction: one `dictInsert` per record, a
raised `ValueError` (`none`) aborting the loop as an exception would. -/
def latestFold : List VersionRecord → List (String × VersionRecord) →
    Option (List (String × VersionRecord))
  | [], d => some d
  | r :: rs, d =>
    match dictInsert d (latestKey r) r with
    | some d' => latestFold rs d'
    | none => none

/-- The `latest_only` reduction (lines 187-201): fold the filtered records
into the keyed dictionary and return `list(latest_versions.values())`,
which lists values in key insertion order. -/
def latestReduce (rs : List VersionRecord) : Option (List VersionRecord) :=
  (latestFold rs []).map (List.map Prod.snd)

/-- The warning printed when the legacy fetch fails (line 138); accents of the
original Portuguese text are transliterated. -/
def legacyWarning : String := "Aviso: Nao foi possivel obter versoes legadas."

/-- `get_filtered_versions`, with the fetched catalogs passed as values:
`modern = none` models a failed `fetch_versions` (the function returns `[]`),
`legacy = none` models a failed `fetch_legacy_versions` (warn and continue).
Result: the list of printed warnings, and the returned record list
(`none` models an uncaught `ValueError` from the reduction). -/
def get_filtered_versions (modern : Option (List CatalogEntry)) (legacy : Option (List String))
    (platform version_filter arch : Option String) (latest_only include_legacy : Bool) :
    List String × Option (List VersionRecord) :=
  match modern with
  | none => ([], some [])
  | some entries =>
    let pk := resolvePlatformKeys platform arch
    let modernRecs := processModern entries pk version_filter
    let warns := if include_legacy ∧ legacy.isNone then [legacyWarning] else []
    let legacyRecs :=
      if include_legacy then
        match legacy with
        | some vs => legacySynth vs platform arch version_filter
        | none => []
      else []
    let allRecs := modernRecs ++ legacyRecs
    (warns,
      if latest_only ∧ ¬ allRecs.isEmpty then latestReduce allRecs else some allRecs)

/-- `f"{major_version}.0"`: the synthetic directory bucket of
`find_missing_drivers`. -/
def bucketKey (r : VersionRecord) : String :=
  majorOf r.version ++ ".0"

/-- The dict value built for a record by `find_missing_drivers`
(line 341-345). -/
def infoOf (r : VersionRecord) : DriverInfo :=
  ⟨r.version, r.download_url, r.source = "legacy"⟩

/-- Generic model of a Python dict built by repeated `d[k] = v` assignment on
an association list: a present key keeps its position and has its value
combined with the new one; an absent key is appended. -/
def upsert {K V : Type} [DecidableEq K] (comb : V → V → V) :
    List (K × V) → K → V → List (K × V)
  | [], k, v => [(k, v)]
  | (k', v') :: rest, k, v =>
    if k = k' then (k', comb v' v) :: rest
    else (k', v') :: upsert comb rest k v

/-- Fold a pair list into a dict with `upsert`. -/
def dictFold {K V : Type} [DecidableEq K] (comb : V → V → V) (l : List (K × V)) :
    List (K × V) :=
  l.foldl (fun d kv => upsert comb d kv.1 kv.2) []

/-- Fold a group's values with the dict's combining step; `none` on the empty
group. -/
def foldComb {V : Type} (comb : V → V → V) : List V → Option V
  | [] => none
  | v :: vs => some (vs.foldl comb v)

/-- The diff of `find_missing_drivers` (lines 337-362) on the filtered record
list and the local directory listing: build `version_map` keyed by the
synthetic bucket with plain last-wins assignment, then keep every bucket whose
name is not among the existing directory names. -/
def find_missing_drivers (rs : List VersionRecord) (existing_dirs : List String) :
    List MissingEntry :=
  (dictFold (fun _ new => new) (rs.map (fun r => (bucketKey r, infoOf r)))).filterMap
    (fun kv =>
      if kv.1 ∈ existing_dirs then none
      else some ⟨kv.1, kv.2.full_version, kv.2.download_url, kv.2.is_legacy⟩)

/-! ### Specification-side definitions

These follow the wording of the specification and are compared with the
source-translated functions above. -/

/-- The elements of a list in order of first occurrence, each once
(auxiliary, carrying the set of already-seen elements). -/
def firstOccurAux {α : Type} [DecidableEq α] (seen : List α) : List α → List α
  | [] => []
  | a :: as => if a ∈ seen then firstOccurAux seen as else a :: firstOccurAux (a :: seen) as

/-- The elements of a list in order of first occurrence, each once. -/
def firstOccur {α : Type} [DecidableEq α] (l : List α) : List α :=
  firstOccurAux [] l

/-- The values stored under key `k` during a dict build, in iteration order. -/
def groupVals {K V : Type} [DecidableEq K] (l : List (K × V)) (k : K) : List V :=
  (l.filter (fun kv => kv.1 = k)).map Prod.snd

/-- Declarative description of a dict built by repeated assignment: keys in
order of first occurrence, each bound to the fold of its group's values. -/
def specDict {K V : Type} [DecidableEq K] (comb : V → V → V) (l : List (K × V)) :
    List (K × V) :=
  (firstOccur (l.map Prod.fst)).filterMap
    (fun k => (foldComb comb (groupVals l k)).map (fun v => (k, v)))

/-- Spec wording, `latest_only`: the grouping key is the pair
(major version segment, platform token). -/
def pairKey (r : VersionRecord) : String × String :=
  (majorOf r.version, r.platform)

/-- The string the source builds from a grouping pair. -/
def keyOfPair (k : String × String) : String :=
  k.1 ++ "_" ++ k.2

/-- `some (c ≤ 0)`-style Boolean of the comparator: `x` is not above `y`. -/
def cmpLEb (x y : VersionRecord) : Bool :=
  match compare_versions x.version y.version with
  | some c => decide (c ≤ 0)
  | none => false

/-- Boolean of the comparator: `x` is strictly above `y`. -/
def cmpGTb (x y : VersionRecord) : Bool :=
  match compare_versions x.version y.version with
  | some c => decide (0 < c)
  | none => false

/-- The step the reduction dictionary applies at a present key. -/
def combMax (old new : VersionRecord) : VersionRecord :=
  if cmpGTb new old then new else old

/-- `r` is maximal in `g` under the version comparator. -/
def isMaxIn (g : List VersionRecord) (r : VersionRecord) : Bool :=
  g.all (fun x => cmpLEb x r)

/-- Spec wording: the single kept record of a group is the maximal one, ties
going to the first-encountered record, i.e. the first maximal element. -/
def specPick (g : List VersionRecord) : Option VersionRecord :=
  g.find? (isMaxIn g)

/-- Spec wording of the whole `latest_only` reduction: one record per
(major, platform) group, each group contributing its first maximal record,
groups listed in order of first appearance. -/
def specLatest (rs : List VersionRecord) : List VersionRecord :=
  (firstOccur (rs.map pairKey)).filterMap (fun k =>
    specPick (rs.filter (fun r => pairKey r = k)))

/-- Spec wording of the reconciler: every record is bucketed under
`major + ".0"`, the last record in iteration order wins a bucket, and a bucket
is missing iff no existing subdirectory name equals it exactly. -/
def specMissing (rs : List VersionRecord) (existing_dirs : List String) : List MissingEntry :=
  (firstOccur (rs.map bucketKey)).filterMap (fun k =>
    if k ∈ existing_dirs then none
    else ((rs.filter (fun r => bucketKey r = k)).getLast?).map (fun r =>
      ⟨k, r.version, r.download_url, r.source = "legacy"⟩))

/-! ### Comparator theory -/

theorem cmpNil_nonpos : ∀ ys : List Nat, cmpNil ys ≤ 0 := by
  intro ys
  induction ys with
  | nil => simp [cmpNil]
  | cons y ys ih =>
    simp only [cmpNil]
    split <;> omega

theorem cmpSeg_nil_left : ∀ b : List Nat, cmpSeg [] b = cmpNil b := by
  intro b; rfl

theorem cmpSeg_nil_right_eq : ∀ a : List Nat, cmpSeg a [] = -cmpNil a := by
  intro a
  induction a with
  | nil => rfl
  | cons x xs ih =>
    simp only [cmpSeg, cmpNil]
    split <;> simp [ih]

theorem cmpSeg_nil_right_nonneg : ∀ a : List Nat, 0 ≤ cmpSeg a [] := by
  intro a
  rw [cmpSeg_nil_right_eq]
  have := cmpNil_nonpos a
  omega

theorem cmpSeg_self : ∀ a : List Nat, cmpSeg a a = 0 := by
  intro a
  induction a with
  | nil => rfl
  | cons x xs ih => simp [cmpSeg, ih]

theorem cmpSeg_swap : ∀ a b : List Nat, cmpSeg b a = -cmpSeg a b := by
  intro a
  induction a with
  | nil =>
    intro b
    rw [cmpSeg_nil_right_eq, cmpSeg_nil_left]
  | cons x xs ih =>
    intro b
    cases b with
    | nil =>
      rw [cmpSeg_nil_left, cmpSeg_nil_right_eq]
      simp
    | cons y ys =>
      simp only [cmpSeg]
      rcases Nat.lt_trichotomy x y with h | h | h
      · simp [if_pos h, if_neg (show ¬ y < x by omega)]
      · subst h
        simp only [if_neg (Nat.lt_irrefl x)]
        exact ih ys
      · simp [if_pos h, if_neg (show ¬ x < y by omega)]

theorem cmpSeg_le_trans :
    ∀ a b c : List Nat, cmpSeg a b ≤ 0 → cmpSeg b c ≤ 0 → cmpSeg a c ≤ 0 := by
  intro a
  induction a with
  | nil =>
    intro b c _ _
    rw [cmpSeg_nil_left]
    exact cmpNil_nonpos c
  | cons x xs ih =>
    intro b c hab hbc
    cases b with
    | nil =>
      have hx : ¬ 0 < x := by
        intro hx
        simp only [cmpSeg, if_pos hx] at hab
        omega
      have hxs : cmpSeg xs [] ≤ 0 := by
        simpa only [cmpSeg, if_neg hx] using hab
      cases c with
      | nil => simpa only [cmpSeg, if_neg hx] using hxs
      | cons z zs =>
        simp only [cmpSeg]
        have hx0 : x = 0 := by omega
        subst hx0
        rw [if_neg (by omega)]
        split
        · omega
        · rename_i hz
          have hz0 : z = 0 := by omega
          exact ih [] zs hxs (by rw [cmpSeg_nil_left]; exact cmpNil_nonpos zs)
    | cons y ys =>
      cases c with
      | nil =>
        have hy : ¬ 0 < y := by
          intro hy
          simp only [cmpSeg, if_pos hy] at hbc
          omega
        have hy0 : y = 0 := by omega
        subst hy0
        have hys : cmpSeg ys [] ≤ 0 := by
          simpa only [cmpSeg, if_neg hy] using hbc
        simp only [cmpSeg] at hab
        have hx : ¬ 0 < x := by
          intro hx
          rw [if_pos (by omega)] at hab
          omega
        have hx0 : x = 0 := by omega
        subst hx0
        rw [if_neg (by omega), if_neg (by omega)] at hab
        simp only [cmpSeg, if_neg hx]
        exact ih ys [] hab hys
      | cons z zs =>
        simp only [cmpSeg] at hab hbc ⊢
        rcases Nat.lt_trichotomy x y with h1 | h1 | h1
        · rw [if_neg (by omega), if_pos h1] at hab
          rcases Nat.lt_trichotomy y z with h2 | h2 | h2
          · rw [if_neg (by omega), if_pos (by omega)]; omega
          · subst h2
            rw [if_neg (by omega), if_pos (by omega)]; omega
          · rw [if_pos h2] at hbc; omega
        · subst h1
          rw [if_neg (by omega), if_neg (by omega)] at hab
          rcases Nat.lt_trichotomy x z with h2 | h2 | h2
          · rw [if_neg (by omega), if_pos h2]; omega
          · subst h2
            rw [if_neg (by omega), if_neg (by omega)] at hbc ⊢
            exact ih ys zs hab hbc
          · rw [if_pos h2] at hbc; omega
        · rw [if_pos h1] at hab; omega

theorem cmpSeg_lt_of_lt_of_le {a b c : List Nat}
    (hab : cmpSeg a b < 0) (hbc : cmpSeg b c ≤ 0) : cmpSeg a c < 0 := by
  have hac : cmpSeg a c ≤ 0 := cmpSeg_le_trans a b c (by omega) hbc
  rcases lt_or_eq_of_le hac with h | h
  · exact h
  · exfalso
    have hca : cmpSeg c a = 0 := by rw [cmpSeg_swap]; omega
    have hba : cmpSeg b a ≤ 0 := cmpSeg_le_trans b c a hbc (by omega)
    rw [cmpSeg_swap] at hba
    omega

theorem cmpSeg_lt_of_le_of_lt {a b c : List Nat}
    (hab : cmpSeg a b ≤ 0) (hbc : cmpSeg b c < 0) : cmpSeg a c < 0 := by
  have hac : cmpSeg a c ≤ 0 := cmpSeg_le_trans a b c hab (by omega)
  rcases lt_or_eq_of_le hac with h | h
  · exact h
  · exfalso
    have hca : cmpSeg c a = 0 := by rw [cmpSeg_swap]; omega
    have hcb : cmpSeg c b ≤ 0 := cmpSeg_le_trans c a b (by omega) hab
    rw [cmpSeg_swap] at hcb
    omega

/-! ### Record-level ordering -/

theorem compare_versions_some {u v : String} {A B : List Nat}
    (hu : parseVersion u = some A) (hv : parseVersion v = some B) :
    compare_versions u v = some (cmpSeg A B) := by
  simp [compare_versions, hu, hv]

theorem cmpLEb_refl {x : VersionRecord} (hx : (parseVersion x.version).isSome) :
    cmpLEb x x = true := by
  obtain ⟨X, hX⟩ := Option.isSome_iff_exists.mp hx
  simp [cmpLEb, compare_versions_some hX hX, cmpSeg_self]

theorem cmpLEb_of_not_cmpGTb {w v : VersionRecord}
    (hw : (parseVersion w.version).isSome) (hv : (parseVersion v.version).isSome)
    (h : cmpGTb w v = false) : cmpLEb w v = true := by
  obtain ⟨W, hW⟩ := Option.isSome_iff_exists.mp hw
  obtain ⟨V, hV⟩ := Option.isSome_iff_exists.mp hv
  simp [cmpGTb, compare_versions_some hW hV] at h
  simp [cmpLEb, compare_versions_some hW hV]
  omega

theorem cmpLEb_trans {x y z : VersionRecord}
    (hx : (parseVersion x.version).isSome) (hy : (parseVersion y.version).isSome)
    (hz : (parseVersion z.version).isSome)
    (h1 : cmpLEb x y = true) (h2 : cmpLEb y z = true) : cmpLEb x z = true := by
  obtain ⟨X, hX⟩ := Option.isSome_iff_exists.mp hx
  obtain ⟨Y, hY⟩ := Option.isSome_iff_exists.mp hy
  obtain ⟨Z, hZ⟩ := Option.isSome_iff_exists.mp hz
  simp [cmpLEb, compare_versions_some hX hY] at h1
  simp [cmpLEb, compare_versions_some hY hZ] at h2
  simp [cmpLEb, compare_versions_some hX hZ]
  exact cmpSeg_le_trans X Y Z h1 h2

theorem cmpGTb_trans_left {v w m : VersionRecord}
    (hv : (parseVersion v.version).isSome) (hw : (parseVersion w.version).isSome)
    (hm : (parseVersion m.version).isSome)
    (h1 : cmpGTb w v = true) (h2 : cmpLEb w m = true) : cmpGTb m v = true := by
  obtain ⟨V, hV⟩ := Option.isSome_iff_exists.mp hv
  obtain ⟨W, hW⟩ := Option.isSome_iff_exists.mp hw
  obtain ⟨M, hM⟩ := Option.isSome_iff_exists.mp hm
  simp [cmpGTb, compare_versions_some hW hV] at h1
  simp [cmpLEb, compare_versions_some hW hM] at h2
  simp [cmpGTb, compare_versions_some hM hV]
  have hVW : cmpSeg V W < 0 := by rw [cmpSeg_swap]; omega
  have := cmpSeg_lt_of_lt_of_le hVW h2
  rw [cmpSeg_swap] at this
  omega

theorem cmpGTb_trans_right {w v m : VersionRecord}
    (hw : (parseVersion w.version).isSome) (hv : (parseVersion v.version).isSome)
    (hm : (parseVersion m.version).isSome)
    (h1 : cmpLEb w v = true) (h2 : cmpGTb m v = true) : cmpGTb m w = true := by
  obtain ⟨W, hW⟩ := Option.isSome_iff_exists.mp hw
  obtain ⟨V, hV⟩ := Option.isSome_iff_exists.mp hv
  obtain ⟨M, hM⟩ := Option.isSome_iff_exists.mp hm
  simp [cmpLEb, compare_versions_some hW hV] at h1
  simp [cmpGTb, compare_versions_some hM hV] at h2
  simp [cmpGTb, compare_versions_some hM hW]
  have hVM : cmpSeg V M < 0 := by rw [cmpSeg_swap]; omega
  have := cmpSeg_lt_of_le_of_lt h1 hVM
  rw [cmpSeg_swap] at this
  omega

theorem cmpLEb_of_cmpGTb {v m : VersionRecord}
    (hv : (parseVersion v.version).isSome) (hm : (parseVersion m.version).isSome)
    (h : cmpGTb m v = true) : cmpLEb v m = true := by
  obtain ⟨V, hV⟩ := Option.isSome_iff_exists.mp hv
  obtain ⟨M, hM⟩ := Option.isSome_iff_exists.mp hm
  simp [cmpGTb, compare_versions_some hM hV] at h
  simp [cmpLEb, compare_versions_some hV hM]
  rw [cmpSeg_swap]
  omega

theorem cmpLEb_eq_false_of_cmpGTb {m x : VersionRecord}
    (hm : (parseVersion m.version).isSome) (hx : (parseVersion x.version).isSome)
    (h : cmpGTb m x = true) : cmpLEb m x = false := by
  obtain ⟨M, hM⟩ := Option.isSome_iff_exists.mp hm
  obtain ⟨X, hX⟩ := Option.isSome_iff_exists.mp hx
  simp [cmpGTb, compare_versions_some hM hX] at h
  simp [cmpLEb, compare_versions_some hM hX]
  omega

/-! ### The dictionary step keeps the first maximum of each group -/

theorem foldl_combMax_split :
    ∀ (vs : List VersionRecord) (v : VersionRecord),
      (parseVersion v.version).isSome →
      (∀ r ∈ vs, (parseVersion r.version).isSome) →
      ∃ l1 l2, v :: vs = l1 ++ (vs.foldl combMax v) :: l2
        ∧ (∀ x ∈ l1, cmpGTb (vs.foldl combMax v) x = true)
        ∧ (∀ x ∈ v :: vs, cmpLEb x (vs.foldl combMax v) = true) := by
  intro vs
  induction vs with
  | nil =>
    intro v hv _
    refine ⟨[], [], rfl, by simp, ?_⟩
    intro x hx
    simp only [List.mem_singleton] at hx
    subst hx
    exact cmpLEb_refl hv
  | cons w ws ih =>
    intro v hv hws
    have hw : (parseVersion w.version).isSome := hws w (by simp)
    have hws' : ∀ r ∈ ws, (parseVersion r.version).isSome := fun r hr => hws r (by simp [hr])
    rw [List.foldl_cons]
    by_cases hgt : cmpGTb w v = true
    · have hcv : combMax v w = w := by simp [combMax, hgt]
      rw [hcv]
      obtain ⟨l1, l2, hsplit, hlt, hle⟩ := ih w hw hws'
      have hmem : ws.foldl combMax w ∈ w :: ws := by
        rw [hsplit]
        exact List.mem_append_right _ (List.mem_cons_self _ _)
      have hpm : (parseVersion (ws.foldl combMax w).version).isSome := hws _ hmem
      have hwle : cmpLEb w (ws.foldl combMax w) = true := hle w (List.mem_cons_self _ _)
      have hmv : cmpGTb (ws.foldl combMax w) v = true := cmpGTb_trans_left hv hw hpm hgt hwle
      refine ⟨v :: l1, l2, ?_, ?_, ?_⟩
      · rw [List.cons_append, ← hsplit]
      · intro x hx
        rcases List.mem_cons.mp hx with hx | hx
        · subst hx; exact hmv
        · exact hlt x hx
      · intro x hx
        rcases List.mem_cons.mp hx with hx | hx
        · subst hx; exact cmpLEb_of_cmpGTb hv hpm hmv
        · exact hle x hx
    · have hgt' : cmpGTb w v = false := by
        cases h : cmpGTb w v
        · rfl
        · exact absurd h hgt
      have hcv : combMax v w = v := by simp [combMax, hgt']
      rw [hcv]
      obtain ⟨l1, l2, hsplit, hlt, hle⟩ := ih v hv hws'
      have hmem : ws.foldl combMax v ∈ v :: ws := by
        rw [hsplit]
        exact List.mem_append_right _ (List.mem_cons_self _ _)
      have hpm : (parseVersion (ws.foldl combMax v).version).isSome := by
        rcases List.mem_cons.mp hmem with h | h
        · rw [h]; exact hv
        · exact hws' _ h
      have hwv : cmpLEb w v = true := cmpLEb_of_not_cmpGTb hw hv hgt'
      cases l1 with
      | nil =>
        simp only [List.nil_append] at hsplit
        injection hsplit with hvm hl2
        refine ⟨[], w :: ws, ?_, by simp, ?_⟩
        · rw [List.nil_append, ← hvm]
        · intro x hx
          rcases List.mem_cons.mp hx with hx | hx
          · rw [hx]
            exact hle v (List.mem_cons_self _ _)
          rcases List.mem_cons.mp hx with hx | hx
          · subst hx
            rw [← hvm]
            exact hwv
          · exact hle x (List.mem_cons_of_mem _ hx)
      | cons h1 t1 =>
        rw [List.cons_append] at hsplit
        injection hsplit with hh1 hws2
        subst hh1
        have hvlt : cmpGTb (ws.foldl combMax v) v = true := hlt v (List.mem_cons_self _ _)
        refine ⟨v :: w :: t1, l2, ?_, ?_, ?_⟩
        · rw [List.cons_append, List.cons_append, ← hws2]
        · intro x hx
          rcases List.mem_cons.mp hx with hx | hx
          · subst hx; exact hvlt
          rcases List.mem_cons.mp hx with hx | hx
          · subst hx
            exact cmpGTb_trans_right hw hv hpm hwv hvlt
          · exact hlt x (List.mem_cons_of_mem _ hx)
        · intro x hx
          rcases List.mem_cons.mp hx with hx | hx
          · rw [hx]
            exact hle v (List.mem_cons_self _ _)
          rcases List.mem_cons.mp hx with hx | hx
          · rw [hx]
            exact cmpLEb_trans hw hv hpm hwv (cmpLEb_of_cmpGTb hv hpm hvlt)
          · exact hle x (List.mem_cons_of_mem _ hx)

theorem find?_split {α : Type} {p : α → Bool} :
    ∀ (l1 : List α) (m : α) (l2 : List α), (∀ x ∈ l1, p x = false) → p m = true →
      (l1 ++ m :: l2).find? p = some m := by
  intro l1
  induction l1 with
  | nil =>
    intro m l2 _ hm
    simp [List.find?_cons_of_pos _ hm]
  | cons a l ih =>
    intro m l2 h hm
    rw [List.cons_append, List.find?_cons_of_neg _ (by simp [h a (List.mem_cons_self _ _)])]
    exact ih m l2 (fun x hx => h x (List.mem_cons_of_mem _ hx)) hm

theorem find?_eq_some_of_split {α : Type} {p : α → Bool} {g l1 l2 : List α} {m : α}
    (hg : g = l1 ++ m :: l2) (h1 : ∀ x ∈ l1, p x = false) (h2 : p m = true) :
    g.find? p = some m := by
  subst hg
  exact find?_split l1 m l2 h1 h2

theorem specPick_eq_foldComb (g : List VersionRecord)
    (hg : ∀ r ∈ g, (parseVersion r.version).isSome) :
    specPick g = foldComb combMax g := by
  cases g with
  | nil => rfl
  | cons v vs =>
    have hv : (parseVersion v.version).isSome := hg v (List.mem_cons_self _ _)
    have hvs : ∀ r ∈ vs, (parseVersion r.version).isSome :=
      fun r hr => hg r (List.mem_cons_of_mem _ hr)
    obtain ⟨l1, l2, hsplit, hlt, hle⟩ := foldl_combMax_split vs v hv hvs
    have hmem : vs.foldl combMax v ∈ v :: vs := by
      rw [hsplit]
      exact List.mem_append_right _ (List.mem_cons_self _ _)
    have hpm : (parseVersion (vs.foldl combMax v).version).isSome := hg _ hmem
    show (v :: vs).find? (isMaxIn (v :: vs)) = foldComb combMax (v :: vs)
    rw [foldComb]
    apply find?_eq_some_of_split hsplit
    · intro x hx
      have hxmem : x ∈ v :: vs := by
        rw [hsplit]
        exact List.mem_append_left _ hx
      have hpx : (parseVersion x.version).isSome := hg x hxmem
      have hGT : cmpGTb (vs.foldl combMax v) x = true := hlt x hx
      have hFalse : cmpLEb (vs.foldl combMax v) x = false :=
        cmpLEb_eq_false_of_cmpGTb hpm hpx hGT
      have : ¬ (isMaxIn (v :: vs) x = true) := by
        rw [isMaxIn, List.all_eq_true]
        intro hall
        have := hall _ hmem
        rw [hFalse] at this
        exact Bool.false_ne_true this
      cases h : isMaxIn (v :: vs) x
      · rfl
      · exact absurd h this
    · rw [isMaxIn, List.all_eq_true]
      intro x hx
      exact hle x hx

/-! ### First-occurrence lists -/

theorem mem_firstOccurAux {α : Type} [DecidableEq α] :
    ∀ (l seen : List α) (x : α), x ∈ firstOccurAux seen l ↔ x ∈ l ∧ x ∉ seen := by
  intro l
  induction l with
  | nil => intro seen x; simp [firstOccurAux]
  | cons a as ih =>
    intro seen x
    by_cases h : a ∈ seen
    · rw [firstOccurAux, if_pos h, ih]
      constructor
      · rintro ⟨h1, h2⟩
        exact ⟨List.mem_cons_of_mem _ h1, h2⟩
      · rintro ⟨h1, h2⟩
        rcases List.mem_cons.mp h1 with h1 | h1
        · subst h1; exact absurd h h2
        · exact ⟨h1, h2⟩
    · rw [firstOccurAux, if_neg h]
      by_cases hxa : x = a
      · subst hxa
        simp [h]
      · simp [List.mem_cons, hxa, ih (a :: seen) x]

theorem mem_firstOccur {α : Type} [DecidableEq α] {l : List α} {x : α} :
    x ∈ firstOccur l ↔ x ∈ l := by
  rw [firstOccur, mem_firstOccurAux]
  simp

theorem nodup_firstOccurAux {α : Type} [DecidableEq α] :
    ∀ (l seen : List α), (firstOccurAux seen l).Nodup := by
  intro l
  induction l with
  | nil => intro seen; simp [firstOccurAux]
  | cons a as ih =>
    intro seen
    rw [firstOccurAux]
    split
    · exact ih seen
    · rw [List.nodup_cons]
      refine ⟨fun hmem => ?_, ih (a :: seen)⟩
      exact ((mem_firstOccurAux as (a :: seen) a).mp hmem).2 (List.mem_cons_self _ _)

theorem nodup_firstOccur {α : Type} [DecidableEq α] (l : List α) :
    (firstOccur l).Nodup :=
  nodup_firstOccurAux l []

theorem firstOccurAux_append_singleton {α : Type} [DecidableEq α] :
    ∀ (l seen : List α) (x : α),
      firstOccurAux seen (l ++ [x]) =
        firstOccurAux seen l ++ (if x ∈ seen ∨ x ∈ l then [] else [x]) := by
  intro l
  induction l with
  | nil =>
    intro seen x
    simp only [List.nil_append, firstOccurAux]
    by_cases h : x ∈ seen
    · rw [if_pos h, if_pos (Or.inl h)]
    · rw [if_neg h, if_neg (by simp [h])]
  | cons a as ih =>
    intro seen x
    rw [List.cons_append, firstOccurAux, firstOccurAux]
    by_cases h : a ∈ seen
    · rw [if_pos h, if_pos h, ih]
      congr 1
      refine if_congr ?_ rfl rfl
      constructor
      · rintro (h1 | h1)
        · exact Or.inl h1
        · exact Or.inr (List.mem_cons_of_mem _ h1)
      · rintro (h1 | h1)
        · exact Or.inl h1
        · rcases List.mem_cons.mp h1 with h1 | h1
          · subst h1; exact Or.inl h
          · exact Or.inr h1
    · rw [if_neg h, if_neg h, ih, List.cons_append]
      congr 2
      refine if_congr ?_ rfl rfl
      constructor
      · rintro (h1 | h1)
        · rcases List.mem_cons.mp h1 with h1 | h1
          · subst h1; exact Or.inr (List.mem_cons_self _ _)
          · exact Or.inl h1
        · exact Or.inr (List.mem_cons_of_mem _ h1)
      · rintro (h1 | h1)
        · exact Or.inl (List.mem_cons_of_mem _ h1)
        · rcases List.mem_cons.mp h1 with h1 | h1
          · subst h1; exact Or.inl (List.mem_cons_self _ _)
          · exact Or.inr h1

theorem firstOccur_append_singleton {α : Type} [DecidableEq α] (l : List α) (x : α) :
    firstOccur (l ++ [x]) = firstOccur l ++ (if x ∈ l then [] else [x]) := by
  rw [firstOccur, firstOccurAux_append_singleton, firstOccur]
  congr 1
  refine if_congr ?_ rfl rfl
  simp

theorem firstOccurAux_map {α β : Type} [DecidableEq α] [DecidableEq β]
    {f : α → β} {P : α → Prop} (hf : ∀ x y, P x → P y → f x = f y → x = y) :
    ∀ (l seen : List α), (∀ x ∈ l, P x) → (∀ x ∈ seen, P x) →
      firstOccurAux (seen.map f) (l.map f) = (firstOccurAux seen l).map f := by
  intro l
  induction l with
  | nil => intro seen _ _; rfl
  | cons a as ih =>
    intro seen hl hseen
    have ha : P a := hl a (List.mem_cons_self _ _)
    have has : ∀ x ∈ as, P x := fun x hx => hl x (List.mem_cons_of_mem _ hx)
    have hmem : f a ∈ seen.map f ↔ a ∈ seen := by
      constructor
      · intro h
        obtain ⟨b, hb, hfb⟩ := List.mem_map.mp h
        have : b = a := hf b a (hseen b hb) ha hfb
        rwa [← this]
      · exact fun h => List.mem_map_of_mem f h
    rw [List.map_cons, firstOccurAux, firstOccurAux]
    by_cases h : a ∈ seen
    · rw [if_pos (hmem.mpr h), if_pos h]
      exact ih seen has hseen
    · rw [if_neg (fun hc => h (hmem.mp hc)), if_neg h, List.map_cons]
      congr 1
      have : (a :: seen).map f = f a :: seen.map f := rfl
      rw [← this]
      refine ih (a :: seen) has ?_
      intro x hx
      rcases List.mem_cons.mp hx with hx | hx
      · rwa [hx]
      · exact hseen x hx

theorem firstOccur_map {α β : Type} [DecidableEq α] [DecidableEq β]
    {f : α → β} {P : α → Prop} (hf : ∀ x y, P x → P y → f x = f y → x = y)
    (l : List α) (hl : ∀ x ∈ l, P x) :
    firstOccur (l.map f) = (firstOccur l).map f :=
  firstOccurAux_map hf l [] hl (by intro x hx; cases hx)

/-! ### Dict folds and their declarative description -/

theorem filterMap_congr_mem {α β : Type} {f g : α → Option β} :
    ∀ {l : List α}, (∀ x ∈ l, f x = g x) → l.filterMap f = l.filterMap g := by
  intro l
  induction l with
  | nil => intro _; rfl
  | cons a as ih =>
    intro h
    rw [List.filterMap_cons, List.filterMap_cons, h a (List.mem_cons_self _ _),
      ih (fun x hx => h x (List.mem_cons_of_mem _ hx))]

theorem upsert_of_not_mem {K V : Type} [DecidableEq K] (comb : V → V → V) :
    ∀ (d : List (K × V)) (k : K) (v : V), k ∉ d.map Prod.fst →
      upsert comb d k v = d ++ [(k, v)] := by
  intro d
  induction d with
  | nil => intro k v _; rfl
  | cons kv rest ih =>
    intro k v h
    obtain ⟨k', v'⟩ := kv
    have hk : ¬ k = k' := by
      intro hc
      exact h (by simp [hc])
    rw [upsert, if_neg hk, List.cons_append, ih k v (fun hc => h (by simp [hc]))]

theorem upsert_append_of_not_mem {K V : Type} [DecidableEq K] (comb : V → V → V) :
    ∀ (d1 : List (K × V)) (k : K) (m v : V) (d2 : List (K × V)), k ∉ d1.map Prod.fst →
      upsert comb (d1 ++ (k, m) :: d2) k v = d1 ++ (k, comb m v) :: d2 := by
  intro d1
  induction d1 with
  | nil =>
    intro k m v d2 _
    rw [List.nil_append, upsert, if_pos rfl, List.nil_append]
  | cons kv rest ih =>
    intro k m v d2 h
    obtain ⟨k', v'⟩ := kv
    have hk : ¬ k = k' := by
      intro hc
      exact h (by simp [hc])
    rw [List.cons_append, upsert, if_neg hk, ih k m v d2 (fun hc => h (by simp [hc])),
      List.cons_append]

theorem groupVals_append_singleton {K V : Type} [DecidableEq K]
    (l : List (K × V)) (k k' : K) (v : V) :
    groupVals (l ++ [(k, v)]) k' = groupVals l k' ++ (if k = k' then [v] else []) := by
  rw [groupVals, List.filter_append, List.map_append, groupVals]
  congr 1
  by_cases h : k = k'
  · subst h
    simp [List.filter_cons]
  · simp [List.filter_cons, h]

theorem groupVals_eq_nil_of_not_mem {K V : Type} [DecidableEq K]
    {l : List (K × V)} {k : K} (h : k ∉ l.map Prod.fst) : groupVals l k = [] := by
  rw [groupVals, List.map_eq_nil_iff, List.filter_eq_nil_iff]
  intro kv hkv
  simp only [decide_eq_true_eq]
  intro hc
  exact h (List.mem_map.mpr ⟨kv, hkv, hc⟩)

theorem groupVals_ne_nil_of_mem {K V : Type} [DecidableEq K]
    {l : List (K × V)} {k : K} (h : k ∈ l.map Prod.fst) : groupVals l k ≠ [] := by
  obtain ⟨kv, hkv, hfst⟩ := List.mem_map.mp h
  rw [groupVals]
  intro hc
  rw [List.map_eq_nil_iff, List.filter_eq_nil_iff] at hc
  exact hc kv hkv (by simp [hfst])

theorem foldComb_append_singleton {V : Type} (comb : V → V → V) :
    ∀ (g : List V) (v : V),
      foldComb comb (g ++ [v]) = some ((foldComb comb g).elim v (fun m => comb m v)) := by
  intro g v
  cases g with
  | nil => rfl
  | cons w ws => rw [List.cons_append, foldComb, foldComb, List.foldl_append]; rfl

theorem specDict_fst {K V : Type} [DecidableEq K] {comb : V → V → V} {l : List (K × V)}
    {kv : K × V} (h : kv ∈ specDict comb l) : kv.1 ∈ firstOccur (l.map Prod.fst) := by
  obtain ⟨k, hk, hfk⟩ := List.mem_filterMap.mp h
  cases hg : foldComb comb (groupVals l k) with
  | none => rw [hg] at hfk; cases hfk
  | some m =>
    rw [hg] at hfk
    simp only [Option.map_some'] at hfk
    injection hfk with hfk
    rw [← hfk]
    exact hk

theorem dictFold_append_singleton {K V : Type} [DecidableEq K] (comb : V → V → V)
    (l : List (K × V)) (kv : K × V) :
    dictFold comb (l ++ [kv]) = upsert comb (dictFold comb l) kv.1 kv.2 := by
  rw [dictFold, List.foldl_append, dictFold]
  rfl

theorem dictFold_eq_specDict {K V : Type} [DecidableEq K] (comb : V → V → V) :
    ∀ l : List (K × V), dictFold comb l = specDict comb l := by
  intro l
  induction l using List.reverseRecOn with
  | nil => rfl
  | append_singleton l kv ih =>
    obtain ⟨k, v⟩ := kv
    rw [dictFold_append_singleton, ih]
    have hkeys : (l ++ [(k, v)]).map Prod.fst = l.map Prod.fst ++ [k] := by simp
    by_cases hk : k ∈ l.map Prod.fst
    · -- the key is already present: the stored value is combined in place
      have hkfo : k ∈ firstOccur (l.map Prod.fst) := mem_firstOccur.mpr hk
      obtain ⟨K1, K2, hsplitK⟩ := List.append_of_mem hkfo
      have hnd := nodup_firstOccur (l.map Prod.fst)
      rw [hsplitK] at hnd
      have hndk := List.nodup_append.mp hnd
      have hk1 : k ∉ K1 := fun hc => hndk.2.2 hc (List.mem_cons_self _ _)
      have hk2 : k ∉ K2 := (List.nodup_cons.mp hndk.2.1).1
      have hgne : groupVals l k ≠ [] := groupVals_ne_nil_of_mem hk
      obtain ⟨m, hm⟩ : ∃ m, foldComb comb (groupVals l k) = some m := by
        cases hg : groupVals l k with
        | nil => exact absurd hg hgne
        | cons w ws => exact ⟨ws.foldl comb w, rfl⟩
      have hf : ∀ k'' : K,
          (foldComb comb (groupVals (l ++ [(k, v)]) k'')).map (fun w => (k'', w)) =
            if k'' = k then some (k, comb m v)
            else (foldComb comb (groupVals l k'')).map (fun w => (k'', w)) := by
        intro k''
        by_cases hkk : k'' = k
        · subst hkk
          rw [if_pos rfl, groupVals_append_singleton, if_pos rfl,
            foldComb_append_singleton, hm]
          rfl
        · rw [if_neg hkk, groupVals_append_singleton,
            if_neg (fun hc => hkk hc.symm), List.append_nil]
      have hfstK1 : k ∉ (List.filterMap
          (fun k'' => (foldComb comb (groupVals l k'')).map (fun w => (k'', w))) K1).map
            Prod.fst := by
        intro hc
        obtain ⟨kv', hkv', hfst'⟩ := List.mem_map.mp hc
        obtain ⟨k'', hk'', hfk''⟩ := List.mem_filterMap.mp hkv'
        cases hg : foldComb comb (groupVals l k'') with
        | none => rw [hg] at hfk''; cases hfk''
        | some w =>
          rw [hg] at hfk''
          simp only [Option.map_some'] at hfk''
          have hfst2 : kv'.1 = k'' := by
            injection hfk'' with h
            rw [← h]
          rw [hfst2] at hfst'
          rw [hfst'] at hk''
          exact hk1 hk''
      have hDL : specDict comb l =
          List.filterMap (fun k'' => (foldComb comb (groupVals l k'')).map
            (fun w => (k'', w))) K1
          ++ (k, m) :: List.filterMap
            (fun k'' => (foldComb comb (groupVals l k'')).map (fun w => (k'', w))) K2 := by
        rw [specDict, hsplitK, List.filterMap_append, List.filterMap_cons, hm]
        rfl
      have hDR : specDict comb (l ++ [(k, v)]) =
          List.filterMap (fun k'' => (foldComb comb (groupVals (l ++ [(k, v)]) k'')).map
            (fun w => (k'', w))) K1
          ++ (k, comb m v) :: List.filterMap
            (fun k'' => (foldComb comb (groupVals (l ++ [(k, v)]) k'')).map
              (fun w => (k'', w))) K2 := by
        rw [specDict, hkeys, firstOccur_append_singleton, if_pos hk, List.append_nil,
          hsplitK, List.filterMap_append, List.filterMap_cons, hf k, if_pos rfl]
      rw [hDL, upsert_append_of_not_mem comb _ k m v _ hfstK1, hDR]
      congr 1
      · refine filterMap_congr_mem ?_
        intro x hx
        have hxk : ¬ x = k := fun hc => hk1 (hc ▸ hx)
        rw [hf x, if_neg hxk]
      · congr 1
        refine filterMap_congr_mem ?_
        intro x hx
        have hxk : ¬ x = k := fun hc => hk2 (hc ▸ hx)
        rw [hf x, if_neg hxk]
    · -- new key: appended at the end
      have hnotin : k ∉ (specDict comb l).map Prod.fst := by
        intro hc
        obtain ⟨kv', hkv', hfst'⟩ := List.mem_map.mp hc
        have := specDict_fst hkv'
        rw [hfst'] at this
        exact hk (mem_firstOccur.mp this)
      rw [upsert_of_not_mem comb _ k v hnotin]
      rw [specDict, specDict, hkeys, firstOccur_append_singleton, if_neg hk,
        List.filterMap_append]
      congr 1
      · refine filterMap_congr_mem ?_
        intro x hx
        have hxk : ¬ k = x := fun hc => hk (hc ▸ mem_firstOccur.mp hx)
        rw [groupVals_append_singleton, if_neg hxk, List.append_nil]
      · rw [List.filterMap_cons]
        rw [groupVals_append_singleton, if_pos rfl,
          groupVals_eq_nil_of_not_mem hk, List.nil_append]
        rfl

/-! ### From the faithful reduction to its declarative description -/

theorem upsert_forall_prop {K V : Type} [DecidableEq K] {P : V → Prop} {comb : V → V → V}
    (hcomb : ∀ a b, P a → P b → P (comb a b)) :
    ∀ (d : List (K × V)) (k : K) (v : V), (∀ kv ∈ d, P kv.2) → P v →
      ∀ kv ∈ upsert comb d k v, P kv.2 := by
  intro d
  induction d with
  | nil =>
    intro k v _ hv kv hkv
    rw [upsert, List.mem_singleton] at hkv
    rw [hkv]
    exact hv
  | cons kv0 rest ih =>
    intro k v hd hv kv hkv
    obtain ⟨k', v'⟩ := kv0
    rw [upsert] at hkv
    by_cases hk : k = k'
    · rw [if_pos hk] at hkv
      rcases List.mem_cons.mp hkv with h | h
      · rw [h]
        exact hcomb v' v (hd (k', v') (List.mem_cons_self _ _)) hv
      · exact hd kv (List.mem_cons_of_mem _ h)
    · rw [if_neg hk] at hkv
      rcases List.mem_cons.mp hkv with h | h
      · rw [h]
        exact hd (k', v') (List.mem_cons_self _ _)
      · exact ih k v (fun x hx => hd x (List.mem_cons_of_mem _ hx)) hv kv h

theorem combMax_parses {a b : VersionRecord}
    (ha : (parseVersion a.version).isSome) (hb : (parseVersion b.version).isSome) :
    (parseVersion (combMax a b).version).isSome := by
  rw [combMax]
  split <;> assumption

theorem upsert_parses :
    ∀ (d : List (String × VersionRecord)) (k : String) (r : VersionRecord),
      (∀ kv ∈ d, (parseVersion kv.2.version).isSome) → (parseVersion r.version).isSome →
      ∀ kv ∈ upsert combMax d k r, (parseVersion kv.2.version).isSome :=
  fun d k r hd hr =>
    @upsert_forall_prop String VersionRecord _
      (fun x => (parseVersion x.version).isSome = true) combMax
      (fun _ _ ha hb => combMax_parses ha hb) d k r hd hr

theorem dictInsert_eq_upsert :
    ∀ (d : List (String × VersionRecord)) (k : String) (r : VersionRecord),
      (∀ kv ∈ d, (parseVersion kv.2.version).isSome) → (parseVersion r.version).isSome →
      dictInsert d k r = some (upsert combMax d k r) := by
  intro d
  induction d with
  | nil => intro k r _ _; rfl
  | cons kv rest ih =>
    intro k r hd hr
    obtain ⟨k', r'⟩ := kv
    have hr' : (parseVersion r'.version).isSome := hd (k', r') (List.mem_cons_self _ _)
    rw [dictInsert, upsert]
    by_cases hk : k = k'
    · rw [if_pos hk, if_pos hk]
      obtain ⟨R, hR⟩ := Option.isSome_iff_exists.mp hr
      obtain ⟨R', hR'⟩ := Option.isSome_iff_exists.mp hr'
      rw [compare_versions_some hR hR']
      simp [combMax, cmpGTb, compare_versions_some hR hR']
    · rw [if_neg hk, if_neg hk, ih k r (fun kv hkv => hd kv (List.mem_cons_of_mem _ hkv)) hr]
      rfl

theorem latestFold_eq :
    ∀ (rs : List VersionRecord) (d : List (String × VersionRecord)),
      (∀ kv ∈ d, (parseVersion kv.2.version).isSome) →
      (∀ r ∈ rs, (parseVersion r.version).isSome) →
      latestFold rs d = some (rs.foldl (fun d r => upsert combMax d (latestKey r) r) d) := by
  intro rs
  induction rs with
  | nil => intro d _ _; rfl
  | cons r rs ih =>
    intro d hd hrs
    have hr := hrs r (List.mem_cons_self _ _)
    rw [latestFold, dictInsert_eq_upsert d (latestKey r) r hd hr, List.foldl_cons]
    exact ih _ (upsert_parses d (latestKey r) r hd hr)
      (fun x hx => hrs x (List.mem_cons_of_mem _ hx))

/-! ### The grouping key determines the (major, platform) pair -/

theorem splitSegs_ne_nil : ∀ l : List Char, splitSegs l ≠ [] := by
  intro l
  cases l with
  | nil => simp [splitSegs]
  | cons c cs =>
    simp only [splitSegs]
    split
    · simp
    · split <;> simp

theorem segNat?_digits {l : List Char} (h : (segNat? l).isSome) :
    l ≠ [] ∧ l.all Char.isDigit := by
  rw [segNat?] at h
  split at h
  · assumption
  · simp at h

theorem parseVersion_head_isSome {v : String} (h : (parseVersion v).isSome) :
    (segNat? ((splitSegs v.data).headD [])).isSome := by
  rw [parseVersion] at h
  cases hs : splitSegs v.data with
  | nil => exact absurd hs (splitSegs_ne_nil v.data)
  | cons s ss =>
    rw [hs, List.mapM_cons] at h
    cases hseg : segNat? s with
    | none => rw [hseg] at h; simp at h
    | some n => simp [hs, hseg]

theorem majorOf_no_underscore {v : String} (h : (parseVersion v).isSome) :
    '_' ∉ (majorOf v).data := by
  have h2 := segNat?_digits (parseVersion_head_isSome h)
  intro hc
  have hall := h2.2
  rw [List.all_eq_true] at hall
  have hdig := hall '_' hc
  have hfalse : Char.isDigit '_' = false := by decide
  rw [hfalse] at hdig
  cases hdig

theorem append_cons_inj {c : Char} :
    ∀ (l1 m1 l2 m2 : List Char), c ∉ l1 → c ∉ m1 →
      l1 ++ c :: l2 = m1 ++ c :: m2 → l1 = m1 ∧ l2 = m2 := by
  intro l1
  induction l1 with
  | nil =>
    intro m1 l2 m2 _ hm1 h
    cases m1 with
    | nil =>
      rw [List.nil_append, List.nil_append] at h
      injection h with _ h2
      exact ⟨rfl, h2⟩
    | cons b bs =>
      rw [List.nil_append, List.cons_append] at h
      injection h with h1 _
      exfalso
      apply hm1
      rw [h1]
      exact List.mem_cons_self b bs
  | cons a as ih =>
    intro m1 l2 m2 hl1 hm1 h
    cases m1 with
    | nil =>
      rw [List.cons_append, List.nil_append] at h
      injection h with h1 _
      exfalso
      apply hl1
      rw [h1]
      exact List.mem_cons_self c as
    | cons b bs =>
      rw [List.cons_append, List.cons_append] at h
      injection h with h1 h2
      subst h1
      obtain ⟨e1, e2⟩ := ih bs l2 m2 (fun hx => hl1 (List.mem_cons_of_mem _ hx))
        (fun hx => hm1 (List.mem_cons_of_mem _ hx)) h2
      exact ⟨by rw [e1], e2⟩

theorem keyOfPair_inj_on : ∀ p q : String × String,
    '_' ∉ p.1.data → '_' ∉ q.1.data → keyOfPair p = keyOfPair q → p = q := by
  intro p q hp hq h
  have hund : ("_" : String).data = ['_'] := rfl
  have hdata : p.1.data ++ '_' :: p.2.data = q.1.data ++ '_' :: q.2.data := by
    have h2 := congrArg String.data h
    rw [keyOfPair, keyOfPair, String.data_append, String.data_append, String.data_append,
      String.data_append, hund] at h2
    simpa using h2
  obtain ⟨h1, h2⟩ := append_cons_inj p.1.data q.1.data p.2.data q.2.data hp hq hdata
  exact Prod.ext (String.ext h1) (String.ext h2)

/-! ### The latest-only reduction equals its specification -/

theorem map_snd_map_pair (o : Option VersionRecord) (k : String) :
    (o.map (fun v => (k, v))).map Prod.snd = o := by
  cases o <;> rfl

theorem latestReduce_eq_specLatest (rs : List VersionRecord)
    (hv : ∀ r ∈ rs, (parseVersion r.version).isSome) :
    latestReduce rs = some (specLatest rs) := by
  rw [latestReduce, latestFold_eq rs [] (by intro kv hkv; cases hkv) hv, Option.map_some']
  congr 1
  have hfold : rs.foldl (fun d r => upsert combMax d (latestKey r) r) []
      = dictFold combMax (rs.map (fun r => (latestKey r, r))) := by
    rw [dictFold, List.foldl_map]
  rw [hfold, dictFold_eq_specDict, specDict, List.map_filterMap]
  have hkeys : (rs.map (fun r => (latestKey r, r))).map Prod.fst
      = (rs.map pairKey).map keyOfPair := by
    rw [List.map_map, List.map_map]
    rfl
  have hP : ∀ p ∈ rs.map pairKey, '_' ∉ p.1.data := by
    intro p hp
    obtain ⟨r, hr, hpr⟩ := List.mem_map.mp hp
    rw [← hpr]
    exact majorOf_no_underscore (hv r hr)
  rw [hkeys, firstOccur_map (fun x y hx hy => keyOfPair_inj_on x y hx hy) _ hP,
    List.filterMap_map, specLatest]
  refine filterMap_congr_mem ?_
  intro p hp
  have hpP : '_' ∉ p.1.data := hP p (mem_firstOccur.mp hp)
  have hgroup : groupVals (rs.map (fun r => (latestKey r, r))) (keyOfPair p)
      = rs.filter (fun r => pairKey r = p) := by
    rw [groupVals, List.filter_map, List.map_map]
    have hid : (Prod.snd ∘ fun r : VersionRecord => (latestKey r, r)) = id := rfl
    rw [hid, List.map_id]
    refine List.filter_congr ?_
    intro r hr
    refine decide_eq_decide.mpr ?_
    constructor
    · intro hke
      have : keyOfPair (pairKey r) = keyOfPair p := hke
      exact keyOfPair_inj_on (pairKey r) p (majorOf_no_underscore (hv r hr)) hpP this
    · intro hpe
      show latestKey r = keyOfPair p
      rw [← hpe]
      rfl
  show ((foldComb combMax (groupVals (rs.map fun r => (latestKey r, r)) (keyOfPair p))).map
      (fun v => (keyOfPair p, v))).map Prod.snd = specPick (rs.filter fun r => pairKey r = p)
  rw [map_snd_map_pair, hgroup]
  refine (specPick_eq_foldComb _ ?_).symm
  intro r hr
  exact hv r (List.mem_filter.mp hr).1

/-! ### The reconciler diff equals its specification -/

theorem foldComb_lastComb {V : Type} :
    ∀ (vs : List V) (v : V), some (vs.foldl (fun _ new => new) v) = (v :: vs).getLast? := by
  intro vs
  induction vs with
  | nil => intro v; rfl
  | cons w ws ih =>
    intro v
    rw [List.foldl_cons]
    exact ih w

theorem find_missing_eq_specMissing (rs : List VersionRecord) (existing_dirs : List String) :
    find_missing_drivers rs existing_dirs = specMissing rs existing_dirs := by
  rw [find_missing_drivers, dictFold_eq_specDict, specDict, List.filterMap_filterMap,
    specMissing]
  have hkeys : (rs.map (fun r => (bucketKey r, infoOf r))).map Prod.fst = rs.map bucketKey := by
    rw [List.map_map]
    rfl
  rw [hkeys]
  refine filterMap_congr_mem ?_
  intro k _
  have hgroup : groupVals (rs.map (fun r => (bucketKey r, infoOf r))) k
      = (rs.filter (fun r => bucketKey r = k)).map infoOf := by
    rw [groupVals, List.filter_map, List.map_map]
    rfl
  rw [hgroup]
  have hfold2 : foldComb (fun _ new => new) ((rs.filter (fun r => bucketKey r = k)).map infoOf)
      = ((rs.filter (fun r => bucketKey r = k)).getLast?).map infoOf := by
    cases hf : rs.filter (fun r => bucketKey r = k) with
    | nil => rfl
    | cons x xs =>
      show some ((xs.map infoOf).foldl (fun _ new => new) (infoOf x))
        = ((x :: xs).getLast?).map infoOf
      rw [foldComb_lastComb (xs.map infoOf) (infoOf x)]
      show ((x :: xs).map infoOf).getLast? = ((x :: xs).getLast?).map infoOf
      rw [List.getLast?_map]
  rw [hfold2]
  cases hlast : (rs.filter (fun r => bucketKey r = k)).getLast? with
  | none =>
    by_cases hex : k ∈ existing_dirs
    · rw [if_pos hex]
      rfl
    · rw [if_neg hex]
      rfl
  | some r =>
    by_cases hex : k ∈ existing_dirs
    · show (if k ∈ existing_dirs then none else _) = (if k ∈ existing_dirs then none else _)
      rw [if_pos hex, if_pos hex]
    · show (if k ∈ existing_dirs then none else _) = (if k ∈ existing_dirs then none else _)
      rw [if_neg hex, if_neg hex]
      rfl

theorem nodup_map_filterMap {α β : Type} (f : α → Option β) (g : β → α) :
    ∀ (l : List α), l.Nodup → (∀ a b, f a = some b → g b = a) →
      ((l.filterMap f).map g).Nodup := by
  intro l
  induction l with
  | nil => intro _ _; simp
  | cons a as ih =>
    intro hl hf
    rw [List.filterMap_cons]
    cases hfa : f a with
    | none => exact ih (List.nodup_cons.mp hl).2 hf
    | some b =>
      rw [List.map_cons, List.nodup_cons]
      refine ⟨?_, ih (List.nodup_cons.mp hl).2 hf⟩
      intro hc
      obtain ⟨b', hb', hgb'⟩ := List.mem_map.mp hc
      obtain ⟨a', ha', hfa'⟩ := List.mem_filterMap.mp hb'
      have h1 : g b' = a' := hf a' b' hfa'
      have h2 : g b = a := hf a b hfa
      rw [h1, h2] at hgb'
      rw [hgb'] at ha'
      exact (List.nodup_cons.mp hl).1 ha'

/-! ### Major-version filtering commutes with catalog restriction -/

theorem processModern_major_filter (entries : List CatalogEntry) (pk : Option (List String))
    (f : String) (hf : f ≠ "") :
    processModern entries pk (some f)
      = processModern (entries.filter (fun e => majorOf e.version = f)) pk none := by
  induction entries with
  | nil => rfl
  | cons e es ih =>
    rw [processModern, List.flatMap_cons, List.filter_cons]
    by_cases he : majorOf e.version = f
    · rw [if_pos (by simpa using he), processModern, List.flatMap_cons]
      congr 1
      rw [recordsOfEntry.eq_def, recordsOfEntry.eq_def]
      have h1 : passesMajor (some f) e.version = true := by
        simp [passesMajor, he]
      rw [h1]
      rfl
    · rw [if_neg (by simpa using he)]
      have h0 : recordsOfEntry pk (some f) e = [] := by
        rw [recordsOfEntry.eq_def]
        have h1 : passesMajor (some f) e.version = false := by
          simp [passesMajor, hf, he]
        rw [h1]
        simp
      rw [h0, List.nil_append]
      exact ih

/-! ### Claim theorems -/

/-- C1: with latestOnly, the filtered result set is reduced by grouping records
by the pair (major version segment, platform token), keeping per group the
single record whose version is maximal under the comparator, ties going to the
first-encountered record, groups in order of first appearance; in particular
major-114/win64 records 114.0.1.1 and 114.0.9.9 reduce to the 114.0.9.9 record
alone.  The version strings are assumed numeric, as the data-model invariant
guarantees. -/
theorem claim_C1_latest_only (rs : List VersionRecord)
    (hv : ∀ r ∈ rs, (parseVersion r.version).isSome) :
    latestReduce rs = some (specLatest rs) ∧
    latestReduce [⟨"114.0.1.1", "win64", "u1", "modern"⟩, ⟨"114.0.9.9", "win64", "u2", "modern"⟩]
      = some [⟨"114.0.9.9", "win64", "u2", "modern"⟩] :=
  ⟨latestReduce_eq_specLatest rs hv, by rfl⟩

/-- Witness for C1 at a concrete two-record input. -/
theorem claim_C1_latest_only_witness :
    latestReduce [⟨"114.0.1.1", "win64", "u1", "modern"⟩, ⟨"114.0.9.9", "win64", "u2", "modern"⟩]
        = some (specLatest [⟨"114.0.1.1", "win64", "u1", "modern"⟩,
            ⟨"114.0.9.9", "win64", "u2", "modern"⟩]) ∧
    latestReduce [⟨"114.0.1.1", "win64", "u1", "modern"⟩, ⟨"114.0.9.9", "win64", "u2", "modern"⟩]
      = some [⟨"114.0.9.9", "win64", "u2", "modern"⟩] :=
  claim_C1_latest_only
    [⟨"114.0.1.1", "win64", "u1", "modern"⟩, ⟨"114.0.9.9", "win64", "u2", "modern"⟩]
    (by decide)

/-- C2: on all-numeric dotted version strings, `_compare_versions` compares
segment-by-segment with missing trailing segments as 0, and satisfies
compare(A,B) = -compare(B,A), compare(A,A) = 0, compare(2.0.0.0, 1.9.9.9) = 1
and compare(1.2, 1.2.0.0) = 0. -/
theorem claim_C2_comparator (A B : String)
    (hA : (parseVersion A).isSome) (hB : (parseVersion B).isSome) :
    (∃ c : Int, compare_versions A B = some c ∧ compare_versions B A = some (-c)) ∧
    compare_versions A A = some 0 ∧
    compare_versions "2.0.0.0" "1.9.9.9" = some 1 ∧
    compare_versions "1.2" "1.2.0.0" = some 0 := by
  obtain ⟨a, ha⟩ := Option.isSome_iff_exists.mp hA
  obtain ⟨b, hb⟩ := Option.isSome_iff_exists.mp hB
  refine ⟨⟨cmpSeg a b, compare_versions_some ha hb, ?_⟩, ?_, by rfl, by rfl⟩
  · rw [compare_versions_some hb ha, cmpSeg_swap]
  · rw [compare_versions_some ha ha, cmpSeg_self]

/-- Witness for C2 at concrete numeric version strings. -/
theorem claim_C2_comparator_witness :
    (∃ c : Int, compare_versions "1.2.3" "4.5" = some c
      ∧ compare_versions "4.5" "1.2.3" = some (-c)) ∧
    compare_versions "1.2.3" "1.2.3" = some 0 ∧
    compare_versions "2.0.0.0" "1.9.9.9" = some 1 ∧
    compare_versions "1.2" "1.2.0.0" = some 0 :=
  claim_C2_comparator "1.2.3" "4.5" (by decide) (by decide)

/-- C3: the reconciler buckets each record under the synthetic name
major + ".0", the last record in iteration order wins each bucket, and a bucket
is missing iff no existing subdirectory name equals it exactly; in particular
existing [113.0, 115.0] against majors 113, 114, 115 yields exactly the 114.0
missing entry. -/
theorem claim_C3_reconciler (rs : List VersionRecord) (existing_dirs : List String) :
    find_missing_drivers rs existing_dirs = specMissing rs existing_dirs ∧
    find_missing_drivers
        [⟨"113.0.1.1", "win64", "a", "modern"⟩, ⟨"114.0.1.1", "win64", "b", "modern"⟩,
         ⟨"115.0.1.1", "win64", "c", "modern"⟩] ["113.0", "115.0"]
      = [⟨"114.0", "114.0.1.1", "b", false⟩] :=
  ⟨find_missing_eq_specMissing rs existing_dirs, by rfl⟩

/-- C4: with a non-empty majorVersion filter, a modern record survives iff the
leading dot-separated segment of its version equals the filter under string
equality; the filter commutes with restricting the catalog to matching
entries.  The catalog [114.0.1.1, 114.0.2.2, 115.0.1.1] on win64 filtered by
114 yields exactly the two 114.x records in order. -/
theorem claim_C4_major_filter (entries : List CatalogEntry) (pk : Option (List String))
    (f : String) (hf : f ≠ "") :
    processModern entries pk (some f)
      = processModern (entries.filter (fun e => majorOf e.version = f)) pk none ∧
    processModern
        [⟨"114.0.1.1", [⟨"win64", "u1"⟩]⟩, ⟨"114.0.2.2", [⟨"win64", "u2"⟩]⟩,
         ⟨"115.0.1.1", [⟨"win64", "u3"⟩]⟩] (some ["win64"]) (some "114")
      = [⟨"114.0.1.1", "win64", "u1", "modern"⟩, ⟨"114.0.2.2", "win64", "u2", "modern"⟩] :=
  ⟨processModern_major_filter entries pk f hf, by rfl⟩

/-- Witness for C4 at a concrete catalog and the filter string 114. -/
theorem claim_C4_major_filter_witness :
    processModern
        [⟨"114.0.1.1", [⟨"win64", "u1"⟩]⟩, ⟨"114.0.2.2", [⟨"win64", "u2"⟩]⟩,
         ⟨"115.0.1.1", [⟨"win64", "u3"⟩]⟩] (some ["win64"]) (some "114")
      = processModern
        ([⟨"114.0.1.1", [⟨"win64", "u1"⟩]⟩, ⟨"114.0.2.2", [⟨"win64", "u2"⟩]⟩,
          ⟨"115.0.1.1", [⟨"win64", "u3"⟩]⟩].filter (fun e => majorOf e.version = "114"))
        (some ["win64"]) none ∧
    processModern
        [⟨"114.0.1.1", [⟨"win64", "u1"⟩]⟩, ⟨"114.0.2.2", [⟨"win64", "u2"⟩]⟩,
         ⟨"115.0.1.1", [⟨"win64", "u3"⟩]⟩] (some ["win64"]) (some "114")
      = [⟨"114.0.1.1", "win64", "u1", "modern"⟩, ⟨"114.0.2.2", "win64", "u2", "modern"⟩] :=
  claim_C4_major_filter
    [⟨"114.0.1.1", [⟨"win64", "u1"⟩]⟩, ⟨"114.0.2.2", [⟨"win64", "u2"⟩]⟩,
     ⟨"115.0.1.1", [⟨"win64", "u3"⟩]⟩] (some ["win64"]) "114" (by decide)

/-- C5 counterexample: the claim maps linux+x86 to the token set containing
only linux32, but the code resolves linux+x86 to linux64 — the arch refinement
at lines 88-93 only applies to windows and `platform_map` has no linux32. -/
theorem claim_C5_counterexample :
    resolvePlatformKeys (some "linux") (some "x86") = some ["linux64"] ∧
    resolvePlatformKeys (some "linux") (some "x86") ≠ some ["linux32"] :=
  ⟨rfl, by decide⟩

/-- C5 amended: the modern-source platform/arch mapping is windows+x64 to
win64 only, windows with no arch to win64 and win32, linux+x86 to linux64
(the arch refinement applies only to windows), linux+x64 to linux64, and
linux with no arch to linux64. -/
theorem claim_C5_amended :
    resolvePlatformKeys (some "windows") (some "x64") = some ["win64"] ∧
    resolvePlatformKeys (some "windows") none = some ["win64", "win32"] ∧
    resolvePlatformKeys (some "linux") (some "x86") = some ["linux64"] ∧
    resolvePlatformKeys (some "linux") (some "x64") = some ["linux64"] ∧
    resolvePlatformKeys (some "linux") none = some ["linux64"] :=
  ⟨rfl, rfl, rfl, rfl, rfl⟩

/-- C6 counterexample: with no platform/arch the legacy synthesis does not
cover all four tokens once each — it never produces win64 and produces win32
twice (the legacy map sends both windows archs to win32). -/
theorem claim_C6_counterexample :
    (legacyRecordsFor "114.0.1.1" none none).map (fun r => r.platform)
      = ["win32", "win32", "linux64", "linux32"] ∧
    "win64" ∉ (legacyRecordsFor "114.0.1.1" none none).map (fun r => r.platform) ∧
    ¬ ((legacyRecordsFor "114.0.1.1" none none).map (fun r => r.platform)).Nodup :=
  ⟨rfl, by decide, by decide⟩

/-- C6 amended: for every legacy version string, when no platform/arch is
requested the index synthesizes exactly four records, one per entry of the
fixed legacy map in iteration order, with platform tokens win32, win32,
linux64, linux32 — win32 duplicated and win64 never synthesized. -/
theorem claim_C6_amended (version : String) :
    legacyRecordsFor version none none =
      [⟨version, "win32", legacyURL version "win32", "legacy"⟩,
       ⟨version, "win32", legacyURL version "win32", "legacy"⟩,
       ⟨version, "linux64", legacyURL version "linux64", "legacy"⟩,
       ⟨version, "linux32", legacyURL version "linux32", "legacy"⟩] := rfl

/-- C7: a legacy version with requested windows/x64 synthesizes exactly one
record, whose URL is the fixed template legacyBaseURL + version +
"/chromedriver_" + token + ".zip" with token win32, and whose source is
"legacy". -/
theorem claim_C7_legacy_windows_x64 (version : String) :
    legacyRecordsFor version (some "windows") (some "x64")
      = [⟨version, "win32", legacy_url ++ version ++ "/chromedriver_win32.zip", "legacy"⟩] ∧
    get_legacy_download_url version "windows" (some "x64")
      = some (legacy_url ++ version ++ "/chromedriver_win32.zip") := by
  have hurl : legacyURL version "win32" = legacy_url ++ version ++ "/chromedriver_win32.zip" := by
    rw [legacyURL, String.append_assoc (legacy_url ++ version ++ "/chromedriver_") "win32" ".zip",
      String.append_assoc (legacy_url ++ version) "/chromedriver_" ("win32" ++ ".zip"),
      show ("/chromedriver_" ++ ("win32" ++ ".zip") : String) = "/chromedriver_win32.zip"
        by decide]
  constructor
  · show legacyOneArch version "windows" "x64" = _
    rw [show legacyOneArch version "windows" "x64"
        = [⟨version, "win32", legacyURL version "win32", "legacy"⟩] from rfl, hurl]
  · rw [show get_legacy_download_url version "windows" (some "x64")
        = some (legacyURL version "win32") from rfl, hurl]

/-- C8 counterexample: with the modern fetch failed and legacy data available,
`get_filtered_versions` returns the empty list as a normal result — it neither
raises an I/O error nor falls back to the legacy source, contradicting the
claim that resolution aborts with an error rather than returning an empty
result. -/
theorem claim_C8_counterexample :
    get_filtered_versions none (some ["114.0.5735.90"]) (some "windows") none (some "x64")
      false true = ([], some []) := rfl

/-- C8 amended: a failed fetch of the modern source makes
`get_filtered_versions` return the empty record list immediately, with no
warning, no legacy fallback and no error; callers then report that no versions
were found and the command exits normally. -/
theorem claim_C8_amended (legacy : Option (List String))
    (platform version_filter arch : Option String) (latest_only include_legacy : Bool) :
    get_filtered_versions none legacy platform version_filter arch latest_only include_legacy
      = ([], some []) := rfl

/-- C9: with includeLegacy, a failed legacy fetch is non-fatal — the warning is
printed and the result equals the records derived from the modern source
alone (the include_legacy = false result). -/
theorem claim_C9_legacy_nonfatal (modern : List CatalogEntry)
    (platform version_filter arch : Option String) (latest_only : Bool) :
    (get_filtered_versions (some modern) none platform version_filter arch latest_only true).1
      = [legacyWarning] ∧
    (get_filtered_versions (some modern) none platform version_filter arch latest_only true).2
      = (get_filtered_versions (some modern) none platform version_filter arch
          latest_only false).2 :=
  ⟨rfl, rfl⟩

/-- C10: the missing list of the reconciler has pairwise distinct versionDir
values — at most one entry per synthetic major bucket — for every record list
and every directory listing. -/
theorem claim_C10_distinct_dirs (rs : List VersionRecord) (existing_dirs : List String) :
    ((find_missing_drivers rs existing_dirs).map (fun e => e.version_dir)).Nodup := by
  rw [find_missing_eq_specMissing, specMissing]
  refine nodup_map_filterMap _ _ _ (nodup_firstOccur _) ?_
  intro k e hke
  by_cases hex : k ∈ existing_dirs
  · rw [if_pos hex] at hke
    cases hke
  · rw [if_neg hex] at hke
    cases hlast : (rs.filter (fun r => bucketKey r = k)).getLast? with
    | none => rw [hlast] at hke; cases hke
    | some r =>
      rw [hlast, Option.map_some'] at hke
      injection hke with hke
      rw [← hke]

end ChromeDriver
